import Mathlib

/-!
Verification development for the Colorado CareAssist route-tracker extraction
engine (`parser.py`, `business_card_scanner.py`).

Text is modelled as `List Char` (ASCII-level shallow embedding of Python
`str`).  Python's `re` module is modelled by a small backtracking matcher
(`RE`, `matchC`, `reSearch`) covering exactly the constructs the source
patterns use: character classes, literals (case-insensitive where the source
passes `re.IGNORECASE`), concatenation, ordered alternation, greedy
`*`/`+`/`?`/bounded repetition, one capture group, and the `\b` word
boundary.  Greedy/backtracking preference order follows Python's leftmost,
alternation-in-order, longest-first-per-quantifier semantics.
-/

namespace CareAssist

/-- Word characters as in Python's `\w` at ASCII level. -/
def wordChar (c : Char) : Bool :=
  c.isAlpha || c.isDigit || c == '_'

/-- Whitespace as in Python's `\s` / `str.strip` at ASCII level. -/
def pySpace (c : Char) : Bool :=
  c == ' ' || c == '\t' || c == '\n' || c == '\r' || c == '\x0b' || c == '\x0c'

/-- Lowercase a text, modelling `str.lower` at ASCII level. -/
def lower (s : List Char) : List Char := s.map Char.toLower

/-- Model of Python `str.strip()` (left side). -/
def stripL (s : List Char) : List Char := s.dropWhile pySpace

/-- Model of Python `str.strip()` (both ends). -/
def strip (s : List Char) : List Char := ((stripL s).reverse.dropWhile pySpace).reverse

/-- Boolean substring containment, modelling Python's `in` on strings. -/
def isSubstr (needle : List Char) : List Char → Bool
  | [] => needle.isEmpty
  | c :: t => needle.isPrefixOf (c :: t) || isSubstr needle t

/-- Case-insensitive prefix test (used for `re.match` with `re.IGNORECASE`
on plain-word patterns). -/
def ciPrefixOf : List Char → List Char → Bool
  | [], _ => true
  | _ :: _, [] => false
  | a :: as, b :: bs => (a.toLower == b.toLower) && ciPrefixOf as bs

/-- Split a text at every occurrence of separator `c`, modelling Python
`str.split(c)` (keeps empty fields). -/
def splitOnChar (c : Char) (s : List Char) : List (List Char) :=
  match s with
  | [] => [[]]
  | a :: t =>
    let r := splitOnChar c t
    if a == c then [] :: r
    else match r with
      | [] => [[a]]
      | h :: rs => (a :: h) :: rs

/-- Helper for `splitWS`: `cur` is the reversed current word. -/
def splitWSGo (cur : List Char) : List Char → List (List Char)
  | [] => if cur.isEmpty then [] else [cur.reverse]
  | c :: t =>
    if pySpace c then
      if cur.isEmpty then splitWSGo [] t else cur.reverse :: splitWSGo [] t
    else splitWSGo (c :: cur) t

/-- Split on whitespace runs, dropping empty fields: Python `str.split()`. -/
def splitWS (s : List Char) : List (List Char) := splitWSGo [] s

/-- Join a list of texts with a single-space separator: Python `' '.join`. -/
def joinSp : List (List Char) → List Char
  | [] => []
  | [x] => x
  | x :: xs => x ++ ' ' :: joinSp xs

/-- Replace every occurrence of one character by another: `str.replace` for
single-character arguments. -/
def replaceChar (a b : Char) (s : List Char) : List Char :=
  s.map (fun c => if c == a then b else c)

/-- Model of Python `str.title()` at ASCII level: a letter is uppercased
when the preceding character is not a letter, otherwise lowercased. -/
def pyTitleGo (prevAlpha : Bool) : List Char → List Char
  | [] => []
  | c :: t =>
    if c.isAlpha then
      (if prevAlpha then c.toLower else c.toUpper) :: pyTitleGo true t
    else c :: pyTitleGo false t

/-- Python `str.title()`. -/
def pyTitle (s : List Char) : List Char := pyTitleGo false s

/-- Model of Python `str.isupper()`: at least one letter, and every letter
uppercase (ASCII-level notion of cased characters). -/
def pyIsUpper (s : List Char) : Bool :=
  s.any Char.isAlpha && s.all (fun c => !c.isAlpha || c.isUpper)

/-- Parse a nonempty digit string as a natural number, modelling `int()` on
the text captured by a `\d+` group. -/
def parseNat (s : List Char) : Nat :=
  s.foldl (fun acc c => 10 * acc + (c.toNat - 48)) 0

/-- Model of Python `float()` restricted to the `\d+\.?\d*` shapes that the
hour patterns capture; the numeric value is kept exactly as a rational. -/
def parseQ (s : List Char) : Option ℚ :=
  match splitOnChar '.' s with
  | [a] => if a ≠ [] && a.all Char.isDigit then some (parseNat a) else none
  | [a, b] =>
    if a ≠ [] && a.all Char.isDigit && b.all Char.isDigit then
      some ((parseNat a : ℚ) + (if b.isEmpty then 0 else (parseNat b : ℚ) / 10 ^ b.length))
    else none
  | _ => none

/-! ### A small backtracking regex engine (model of Python `re`) -/

/-- Regular-expression abstract syntax.  `cls` is a character class given by
a Boolean predicate, `grp` marks the (single) capture group of a pattern,
`wordB` is the zero-width `\b` assertion. -/
inductive RE where
  | eps : RE
  | cls : (Char → Bool) → RE
  | seq : RE → RE → RE
  | alt : RE → RE → RE
  | star : RE → RE
  | grp : RE → RE
  | wordB : RE

/-- Word-boundary test between an optional previous character and the
current suffix. -/
def atWordBoundary (prev : Option Char) (s : List Char) : Bool :=
  let l := match prev with | none => false | some c => wordChar c
  let r := match s with | [] => false | c :: _ => wordChar c
  l != r

/-- Backtracking matcher in continuation style.  `prev` is the character
just before the current position (for `\b`), `g` the capture-group record as
a pair (suffix at group start, suffix at group end), and `k` the
continuation.  Alternatives are tried in order and quantifiers are greedy,
matching Python's preference order; the fuel only bounds `star` unrollings
and is irrelevant once it exceeds the input length. -/
def matchGo
    (next : RE → Option Char → List Char → Option (List Char × List Char) →
      (Option Char → List Char → Option (List Char × List Char) → Option ρ) → Option ρ) :
    RE → Option Char → List Char → Option (List Char × List Char) →
    (Option Char → List Char → Option (List Char × List Char) → Option ρ) → Option ρ
  | .eps, prev, s, g, k => k prev s g
  | .cls p, _, s, g, k =>
    match s with
    | [] => none
    | c :: t => if p c then k (some c) t g else none
  | .seq a b, prev, s, g, k =>
    matchGo next a prev s g (fun p1 s1 g1 => matchGo next b p1 s1 g1 k)
  | .alt a b, prev, s, g, k =>
    match matchGo next a prev s g k with
    | some res => some res
    | none => matchGo next b prev s g k
  | .star a, prev, s, g, k =>
    match matchGo next a prev s g (fun p1 s1 g1 =>
        if s1.length < s.length then next (.star a) p1 s1 g1 k else none) with
    | some res => some res
    | none => k prev s g
  | .grp a, prev, s, g, k =>
    matchGo next a prev s g (fun p1 s1 _ => k p1 s1 (some (s, s1)))
  | .wordB, prev, s, g, k => if atWordBoundary prev s then k prev s g else none

/-- Fuel-indexed entry point: each iteration of a (necessarily consuming)
`star` costs one unit of fuel, so fuel `s.length + 1` is always enough; the
out-of-fuel base case is unreachable from `searchFrom` below. -/
def matchC : Nat → RE → Option Char → List Char → Option (List Char × List Char) →
    (Option Char → List Char → Option (List Char × List Char) → Option ρ) → Option ρ
  | 0, _, _, _, _, _ => none
  | fuel + 1, r, prev, s, g, k => matchGo (matchC fuel) r prev s g k

/-- Raw search result: the suffix where the match starts, the suffix after
the match, and the capture-group record. -/
def searchFrom (r : RE) (prev : Option Char) (s : List Char) :
    Option (List Char × List Char × Option (List Char × List Char)) :=
  match matchC (s.length + 1) r prev s none (fun _ rem g => some (rem, g)) with
  | some (rem, g) => some (s, rem, g)
  | none =>
    match s with
    | [] => none
    | c :: t => searchFrom r (some c) t

/-- Model of `re.search`: leftmost match, scanning positions left to right. -/
def reSearch (r : RE) (s : List Char) : Option (List Char × List Char × Option (List Char × List Char)) :=
  searchFrom r none s

/-- The text of the whole match (`match.group(0)`). -/
def fullOf (m : List Char × List Char × Option (List Char × List Char)) : List Char :=
  m.1.take (m.1.length - m.2.1.length)

/-- The text of capture group 1 (`match.group(1)`), when it participated. -/
def grp1Of (m : List Char × List Char × Option (List Char × List Char)) : Option (List Char) :=
  m.2.2.map (fun gp => gp.1.take (gp.1.length - gp.2.length))

/-- Model of `re.match` / a `^`-anchored `re.search`: match only at the
start of the text, returning (suffix after the match, group record). -/
def reMatchStart (r : RE) (s : List Char) : Option (List Char × Option (List Char × List Char)) :=
  matchC (s.length + 1) r none s none (fun _ rem g => some (rem, g))

/-! Pattern-building helpers. -/

/-- Single literal character (case-sensitive). -/
def litC (c : Char) : RE := .cls (fun x => x == c)

/-- Single literal character under `re.IGNORECASE`. -/
def litCI (c : Char) : RE := .cls (fun x => x.toLower == c.toLower)

/-- Literal string under `re.IGNORECASE`. -/
def strCI (s : String) : RE := s.data.foldr (fun c r => .seq (litCI c) r) .eps

/-- Ordered alternation over a list of branches (leftmost branch tried
first, as in Python). -/
def altList : List RE → RE
  | [] => .cls (fun _ => false)
  | [r] => r
  | r :: rs => .alt r (altList rs)

/-- Greedy `r?`. -/
def optR (r : RE) : RE := .alt r .eps

/-- Greedy `r+`. -/
def plusR (r : RE) : RE := .seq r (.star r)

/-- The class `\d`. -/
def digitC : RE := .cls Char.isDigit

/-- The class `\s`. -/
def spaceC : RE := .cls pySpace

/-- The class `\w`. -/
def wordC : RE := .cls wordChar

/-! ### `parser.py` : data model -/

/-- A finalized visit record as built by `PDFParser._create_visit`. -/
structure Visit where
  stop : Nat
  business_name : List Char
  location : List Char
  city : List Char
  notes : List Char
deriving DecidableEq, Repr

/-- The parser object: its `__init__` populates the two read-only tables
`known_facilities` and `address_patterns`; no method ever writes to them. -/
structure PDFParser where
  known_facilities : List (List Char × List Char)
  address_patterns : List RE

/-- The `known_facilities` dictionary from `PDFParser.__init__`, as an
ordered association list (Python dicts iterate in insertion order). -/
def knownFacilitiesInit : List (List Char × List Char) :=
  [("uchealth memorial hospital".data, "UCHealth Memorial Hospital Central".data),
   ("uchealth memorial".data, "UCHealth Memorial Hospital Central".data),
   ("memorial hospital".data, "UCHealth Memorial Hospital Central".data),
   ("pikes peak hospice".data, "Pikes Peak Hospice".data),
   ("independence center".data, "The Independence Center".data),
   ("penrose hospital".data, "Penrose Hospital".data),
   ("centura health".data, "Centura Health".data),
   ("st francis medical center".data, "St. Francis Medical Center".data),
   ("children's hospital colorado".data, "Children's Hospital Colorado".data),
   ("peaks recovery center".data, "Peaks Recovery Center".data),
   ("cedar springs hospital".data, "Cedar Springs Hospital".data),
   ("parkview medical center".data, "Parkview Medical Center".data),
   ("st mary corwin".data, "St. Mary-Corwin Medical Center".data),
   ("healthsouth".data, "HealthSouth Rehabilitation Hospital".data),
   ("kindred hospital".data, "Kindred Hospital".data),
   ("rehabilitation hospital".data, "Rehabilitation Hospital".data),
   ("veterans affairs".data, "VA Medical Center".data),
   ("va hospital".data, "VA Medical Center".data),
   ("mountain view medical".data, "Mountain View Medical Center".data),
   ("peak vista".data, "Peak Vista Community Health Centers".data),
   ("community health".data, "Community Health Centers".data),
   ("primary care".data, "Primary Care Clinic".data),
   ("urgent care".data, "Urgent Care Center".data),
   ("emergency room".data, "Emergency Room".data),
   ("er".data, "Emergency Room".data)]

/-- The street-type alternation shared by all three address patterns:
`(?:St|Street|Ave|Avenue|Blvd|Boulevard|Rd|Road|Dr|Drive|Way|Ln|Lane|Ct|Court|Pl|Place)`. -/
def streetTypeAlt : RE :=
  altList (["St", "Street", "Ave", "Avenue", "Blvd", "Boulevard", "Rd", "Road",
            "Dr", "Drive", "Way", "Ln", "Lane", "Ct", "Court", "Pl", "Place"].map strCI)

/-- `r'\d+\s+[A-Za-z\s]+(?:St|…|Place)'` — the bare address pattern
(patterns are used with `re.IGNORECASE`; the classes are case-closed). -/
def addrPat1 : RE :=
  .seq (plusR digitC)
    (.seq (plusR spaceC)
      (.seq (plusR (.cls (fun c => c.isAlpha || pySpace c))) streetTypeAlt))

/-- The `,\s*Colorado Springs` suffix of the second address pattern. -/
def sufCS : RE := .seq (litC ',') (.seq (.star spaceC) (strCI "Colorado Springs"))

/-- The `,\s*CO` suffix of the third address pattern. -/
def sufCO : RE := .seq (litC ',') (.seq (.star spaceC) (strCI "CO"))

/-- The same pattern with the `,\s*Colorado Springs` suffix. -/
def addrPat2 : RE := .seq addrPat1 sufCS

/-- The same pattern with the `,\s*CO` suffix. -/
def addrPat3 : RE := .seq addrPat1 sufCO

/-- The parser instance produced by `PDFParser.__init__`. -/
def pdfParser : PDFParser :=
  { known_facilities := knownFacilitiesInit
    address_patterns := [addrPat1, addrPat2, addrPat3] }

/-! ### `parser.py` : `detect_pdf_type` -/

/-- The `time_indicators` vocabulary. -/
def time_indicators : List (List Char) :=
  ["time tracking".data, "hours worked".data, "daily hours".data, "total hours".data,
   "clock in".data, "clock out".data, "break".data, "lunch".data, "start time".data,
   "end time".data, "time sheet".data, "timesheet".data, "work log".data, "daily log".data]

/-- The `route_indicators` vocabulary. -/
def route_indicators : List (List Char) :=
  ["myway".data, "route".data, "stop".data, "visits".data, "delivery".data,
   "pickup".data, "address".data, "location".data, "business".data, "facility".data]

/-- Joined lower-cased text of the first three pages: models the loop
`for page in pdf.pages[:3]: … if page_text: text += page_text.lower()`,
where a page whose extraction yields no text contributes nothing. -/
def firstPagesText (pages : List (Option (List Char))) : List Char :=
  ((pages.take 3).filterMap id).foldl (fun acc t => acc ++ lower t) []

/-- Vocabulary score: `sum(1 for indicator in indicators if indicator in text)`. -/
def indicatorScore (indicators : List (List Char)) (text : List Char) : Nat :=
  indicators.countP (fun i => isSubstr i text)

/-- Core of `detect_pdf_type` on successfully extracted page texts. -/
def detectFromPages (pages : List (Option (List Char))) : List Char :=
  let text := firstPagesText pages
  let time_score := indicatorScore time_indicators text
  let route_score := indicatorScore route_indicators text
  if time_score > route_score && time_score > 0 then "time_tracking".data
  else "myway_route".data

/-- `detect_pdf_type` including its `try/except`: any extraction error is
logged and the route default is returned. -/
def detect_pdf_type (extraction : Except (List Char) (List (Option (List Char)))) : List Char :=
  match extraction with
  | .error _ => "myway_route".data
  | .ok pages => detectFromPages pages

/-! ### `parser.py` : `_extract_time_data` -/

/-- The first date pattern: one or two digits, a slash-or-dash separator,
one or two digits, a separator, four digits — all inside group 1. -/
def datePat1 : RE :=
  let sep := .cls (fun c => c == '/' || c == '-')
  let d12 := .seq digitC (optR digitC)
  let d4 := .seq digitC (.seq digitC (.seq digitC digitC))
  .grp (.seq d12 (.seq sep (.seq d12 (.seq sep d4))))

/-- The second date pattern: four digits, a slash-or-dash separator, one or
two digits, a separator, one or two digits — all inside group 1. -/
def datePat2 : RE :=
  let sep := .cls (fun c => c == '/' || c == '-')
  let d12 := .seq digitC (optR digitC)
  let d4 := .seq digitC (.seq digitC (.seq digitC digitC))
  .grp (.seq d4 (.seq sep (.seq d12 (.seq sep d12))))

/-- `r'(monday|tuesday|wednesday|thursday|friday|saturday|sunday)'` with
`re.IGNORECASE`. -/
def datePat3 : RE :=
  .grp (altList (["monday", "tuesday", "wednesday", "thursday", "friday",
                  "saturday", "sunday"].map strCI))

/-- The ordered `date_patterns` list. -/
def date_patterns : List RE := [datePat1, datePat2, datePat3]

/-- `r'total[:\s]+(\d+\.?\d*)\s*hours?'` (IGNORECASE). -/
def hoursPat1 : RE :=
  .seq (strCI "total")
    (.seq (plusR (.cls (fun c => c == ':' || pySpace c)))
      (.seq (.grp (.seq (plusR digitC) (.seq (optR (litC '.')) (.star digitC))))
        (.seq (.star spaceC) (.seq (strCI "hour") (optR (litCI 's'))))))

/-- `r'hours?[:\s]+(\d+\.?\d*)'` (IGNORECASE). -/
def hoursPat2 : RE :=
  .seq (strCI "hour")
    (.seq (optR (litCI 's'))
      (.seq (plusR (.cls (fun c => c == ':' || pySpace c)))
        (.grp (.seq (plusR digitC) (.seq (optR (litC '.')) (.star digitC))))))

/-- `r'total[:\s]+(\d+\.?\d*)'` (IGNORECASE). -/
def hoursPat3 : RE :=
  .seq (strCI "total")
    (.seq (plusR (.cls (fun c => c == ':' || pySpace c)))
      (.grp (.seq (plusR digitC) (.seq (optR (litC '.')) (.star digitC)))))

/-- `r'(\d+\.?\d*)\s*hours?'` (IGNORECASE). -/
def hoursPat4 : RE :=
  .seq (.grp (.seq (plusR digitC) (.seq (optR (litC '.')) (.star digitC))))
    (.seq (.star spaceC) (.seq (strCI "hour") (optR (litCI 's'))))

/-- The ordered `hours_patterns` list. -/
def hours_patterns : List RE := [hoursPat1, hoursPat2, hoursPat3, hoursPat4]

/-- One pass over the `date_patterns` for a single stripped line: the first
pattern that matches supplies `group(1)`; an already-found date is kept
(`if match and not date`). -/
def dateScan (date : Option (List Char)) (line : List Char) : Option (List Char) :=
  if date.isSome then date
  else
    (date_patterns.foldl (fun acc p =>
      match acc with
      | some d => some d
      | none => (reSearch p line).bind grp1Of) none)

/-- First hours pattern on the line whose captured group parses as a float
(`try: float(...) except ValueError: continue`). -/
def hoursTryLine (line : List Char) : Option ℚ :=
  hours_patterns.foldl (fun acc p =>
    match acc with
    | some q => some q
    | none => ((reSearch p line).bind grp1Of).bind parseQ) none

/-- Python truthiness of the `total_hours` variable: `None` and `0.0` are
both falsy, so the guard `if match and not total_hours` lets a later match
replace a stored `0.0`. -/
def pyFalsyQ : Option ℚ → Bool
  | none => true
  | some q => q == 0

/-- One pass over the `hours_patterns` for a single stripped line. -/
def hoursScan (hours : Option ℚ) (line : List Char) : Option ℚ :=
  if pyFalsyQ hours then
    match hoursTryLine line with
    | some q => some q
    | none => hours
  else hours

/-- The line loop of `_extract_time_data`. -/
def timeGo (date : Option (List Char)) (hours : Option ℚ) :
    List (List Char) → Option (List Char) × Option ℚ
  | [] => (date, hours)
  | l :: rest =>
    let line := strip l
    timeGo (dateScan date line) (hoursScan hours line) rest

/-- `PDFParser._extract_time_data`. -/
def extract_time_data (text : List Char) : Option (List Char) × Option ℚ :=
  timeGo none none (splitOnChar '\n' text)

/-! ### `parser.py` : address extraction and business-name inference -/

/-- `PDFParser._extract_address`: first pattern in `self.address_patterns`
with a match anywhere in the text wins; the result is `group(0).strip()`. -/
def extract_address (p : PDFParser) (text : List Char) : Option (List Char) :=
  p.address_patterns.foldl (fun acc pat =>
    match acc with
    | some a => some a
    | none => (reSearch pat text).map (fun m => strip (fullOf m))) none

/-- First entry of the facility table whose keyword occurs in `text`
(the `for keyword, facility_name in self.known_facilities.items()` loop). -/
def firstFacilityMatch : List (List Char × List Char) → List Char → Option (List Char)
  | [], _ => none
  | (kw, nm) :: rest, text =>
    if isSubstr kw text then some nm else firstFacilityMatch rest text

/-- Second tier of `_infer_business_name`: scan each note individually. -/
def firstFacilityNotes (table : List (List Char × List Char)) :
    List (List Char) → Option (List Char)
  | [] => none
  | note :: rest =>
    match firstFacilityMatch table (lower note) with
    | some nm => some nm
    | none => firstFacilityNotes table rest

/-- The ten `healthcare_patterns` all share the shape
`(\w+(?:\s+\w+)*)\s+(?:ALT₁|ALT₂|…)`; this builds one of them from its
category-word alternatives. -/
def hcPat (alts : List String) : RE :=
  .seq (.grp (.seq (plusR wordC) (.star (.seq (plusR spaceC) (plusR wordC)))))
    (.seq (plusR spaceC) (altList (alts.map strCI)))

/-- The ordered `healthcare_patterns` list of
`_extract_business_name_from_address`. -/
def healthcare_patterns : List RE :=
  [hcPat ["Hospital", "Medical Center", "Health Center", "Healthcare Center"],
   hcPat ["Care Center", "Rehabilitation Center", "Rehab Center"],
   hcPat ["Assisted Living", "Senior Living", "Memory Care"],
   hcPat ["Hospice", "Palliative Care"],
   hcPat ["Clinic", "Medical Clinic", "Health Clinic"],
   hcPat ["Emergency Room", "ER", "Emergency Department"],
   hcPat ["Recovery", "Treatment Center"],
   hcPat ["Internal Medicine", "Family Medicine"],
   hcPat ["Post Acute", "Skilled Nursing"],
   hcPat ["Health Care", "Healthcare"]]

/-- The loop over `healthcare_patterns`: a match whose stripped group 1 is
longer than 2 characters and not a stopword returns; otherwise the loop
continues with the next pattern. -/
def hcScan (address : List Char) : List RE → Option (List Char)
  | [] => none
  | pat :: rest =>
    match (reSearch pat address).bind grp1Of with
    | some g =>
      let name_part := strip g
      if name_part.length > 2 && !(lower name_part ∈ ["the".data, "at".data, "of".data, "and".data]) then
        some name_part
      else hcScan address rest
    | none => hcScan address rest

/-- Street-type tokens excluded by the capitalized-run heuristic. -/
def capRunStopWords : List (List Char) :=
  ["st".data, "street".data, "ave".data, "avenue".data, "blvd".data, "boulevard".data,
   "rd".data, "road".data, "dr".data, "drive".data, "ln".data, "lane".data,
   "ct".data, "court".data, "pl".data, "place".data, "way".data]

/-- Does the word start with an uppercase letter (`part[0].isupper()`)? -/
def headUpper : List Char → Bool
  | [] => false
  | c :: _ => c.isUpper

/-- The capitalized-word accumulation loop of
`_extract_business_name_from_address`: qualifying words are appended; a
non-qualifying word stops the scan once something was collected. -/
def capRunGo (acc : List (List Char)) : List (List Char) → List (List Char)
  | [] => acc
  | w :: ws =>
    if headUpper w && w.length > 2 && !(lower w ∈ capRunStopWords) then
      capRunGo (acc ++ [w]) ws
    else if !acc.isEmpty then acc
    else capRunGo acc ws

/-- The capitalized-run heuristic applied to the street-address part
(`address.split(',')[0].split()`). -/
def capitalizedRun (address : List Char) : List (List Char) :=
  capRunGo [] (splitWS ((splitOnChar ',' address).headD []))

/-- The notes fallback of `_extract_business_name_from_address`. -/
def notesNameScan : List (List Char) → Option (List Char)
  | [] => none
  | note :: rest =>
    let note_lower := lower note
    if ["hospital".data, "medical".data, "health".data, "clinic".data,
        "center".data, "care".data].any (fun t => isSubstr t note_lower) then
      let cap_words := (splitWS note).filter (fun w => headUpper w && w.length > 2)
      if !cap_words.isEmpty then some (joinSp (cap_words.take 3))
      else notesNameScan rest
    else notesNameScan rest

/-- `PDFParser._extract_business_name_from_address`. -/
def extract_business_name_from_address (address : List Char)
    (notes : List (List Char)) : Option (List Char) :=
  match hcScan address healthcare_patterns with
  | some nm => some nm
  | none =>
    let capitalized_words := capitalizedRun address
    let fromCaps : Option (List Char) :=
      if !capitalized_words.isEmpty then
        let business_name := joinSp capitalized_words
        if business_name.length > 3 then some business_name else none
      else none
    match fromCaps with
    | some nm => some nm
    | none => notesNameScan notes

/-- `PDFParser._infer_business_name`: known-facility lookup on the joined
address+notes text, then per-note lookup, then address extraction guarded by
Python truthiness, then the `"Healthcare Facility"` default. -/
def infer_business_name (p : PDFParser) (address : List Char)
    (notes : List (List Char)) : List Char :=
  let text_to_search := lower (address ++ ' ' :: joinSp notes)
  match firstFacilityMatch p.known_facilities text_to_search with
  | some nm => nm
  | none =>
    match firstFacilityNotes p.known_facilities notes with
    | some nm => nm
    | none =>
      match extract_business_name_from_address address notes with
      | some bn =>
        if !bn.isEmpty && bn ≠ "Healthcare Facility".data then bn
        else "Healthcare Facility".data
      | none => "Healthcare Facility".data

/-! ### `parser.py` : `_clean_address`, `_create_visit` -/

/-- Dropping a prefix by a predicate never lengthens a list. -/
theorem dropWhileLenLe (p : Char → Bool) (l : List Char) :
    (l.dropWhile p).length ≤ l.length := by
  induction l with
  | nil => simp [List.dropWhile]
  | cons c t ih => by_cases hc : p c <;> simp [List.dropWhile, hc] <;> omega

/-- Word-boundary test used by `\b` replacement: the targets are all word
characters, so the boundary holds when the neighbouring character is absent
or not a word character. -/
def bOk : Option Char → Bool
  | none => true
  | some c => !wordChar c

/-- Case-insensitive `re.sub(r'\bT\b', repl, s, flags=re.IGNORECASE)` for a
plain-word target `tgt`: scan left to right, replacing non-overlapping
boundary-delimited occurrences. -/
def wordSubGo (tgt repl : List Char) : Nat → Option Char → List Char → List Char
  | 0, _, s => s
  | _ + 1, _, [] => []
  | fuel + 1, prev, c :: rest =>
    if bOk prev && ciPrefixOf tgt (c :: rest) && bOk (((c :: rest).drop tgt.length).head?) && !tgt.isEmpty then
      repl ++ wordSubGo tgt repl fuel (((c :: rest).take tgt.length).getLast?) ((c :: rest).drop tgt.length)
    else
      c :: wordSubGo tgt repl fuel (some c) rest

/-- Entry point of the word substitution; the fuel (one unit per consumed
input character, each step consuming at least one) is always sufficient. -/
def wordSub (tgt repl : List Char) (prev : Option Char) (s : List Char) : List Char :=
  wordSubGo tgt repl s.length prev s

/-- Helper for `collapseWS`: `prevSpace` records whether the previous
character belonged to a whitespace run already replaced. -/
def collapseWSGo (prevSpace : Bool) : List Char → List Char
  | [] => []
  | c :: rest =>
    if pySpace c then
      if prevSpace then collapseWSGo true rest else ' ' :: collapseWSGo true rest
    else c :: collapseWSGo false rest

/-- Collapse every whitespace run to a single space:
`re.sub(r'\s+', ' ', address)`. -/
def collapseWS (s : List Char) : List Char := collapseWSGo false s

/-- The ordered replacement table of `_clean_address`. -/
def streetReplacements : List (List Char × List Char) :=
  [("St".data, "St".data), ("Street".data, "St".data),
   ("Ave".data, "Ave".data), ("Avenue".data, "Ave".data),
   ("Blvd".data, "Blvd".data), ("Boulevard".data, "Blvd".data),
   ("Rd".data, "Rd".data), ("Road".data, "Rd".data),
   ("Dr".data, "Dr".data), ("Drive".data, "Dr".data),
   ("Ln".data, "Ln".data), ("Lane".data, "Ln".data),
   ("Ct".data, "Ct".data), ("Court".data, "Ct".data),
   ("Pl".data, "Pl".data), ("Place".data, "Pl".data)]

/-- `PDFParser._clean_address`. -/
def clean_address (address : List Char) : List Char :=
  streetReplacements.foldl (fun acc (tr : List Char × List Char) =>
    wordSub tr.1 tr.2 none acc) (collapseWS (strip address))

/-- `PDFParser._create_visit`: a stop without an address is dropped;
otherwise the business name is inferred, the city defaulted/overridden and
the address normalized.  The page number is used only for logging. -/
def create_visit (p : PDFParser) (stop_num : Nat) (address : Option (List Char))
    (notes : List (List Char)) (_page_num : Nat) : Option Visit :=
  match address with
  | none => none
  | some addr =>
    let business_name := infer_business_name p addr notes
    let joined := joinSp notes
    let city :=
      if isSubstr "Denver".data addr || isSubstr "Denver".data joined then "Denver".data
      else if isSubstr "Pueblo".data addr || isSubstr "Pueblo".data joined then "Pueblo".data
      else "Colorado Springs".data
    some { stop := stop_num
           business_name := business_name
           location := clean_address addr
           city := city
           notes := strip (joinSp notes) }

/-! ### `parser.py` : `_extract_visits_from_text` -/

/-- `r'^(\d+)[\.\)\-\s]'` — a stop-number line opener (the `^` anchors the
search at the start of the stripped line). -/
def stopRE : RE :=
  .seq (.grp (plusR digitC)) (.cls (fun c => c == '.' || c == ')' || c == '-' || pySpace c))

/-- Stop-line recognition: the captured leading integer together with the
text after the match (`line[stop_match.end():]`). -/
def stopMatchFn (line : List Char) : Option (Nat × List Char) :=
  match reMatchStart stopRE line with
  | some (rem, some gp) => some (parseNat (gp.1.take (gp.1.length - gp.2.length)), rem)
  | some (_, none) => none
  | none => none

/-- The header stoplist of the notes branch:
`re.match(r'^(Route|Stop|Time|Date|Driver|Vehicle)', line, re.IGNORECASE)`. -/
def headerLine (line : List Char) : Bool :=
  ["Route".data, "Stop".data, "Time".data, "Date".data, "Driver".data, "Vehicle".data].any
    (fun w => ciPrefixOf w line)

/-- The two-line look-ahead after a stop line
(`for j in range(i+1, min(i+3, len(lines)))`, on the raw lines). -/
def lookahead2 (p : PDFParser) (rest : List (List Char)) : Option (List Char) :=
  (rest.take 2).foldl (fun acc l =>
    match acc with
    | some a => some a
    | none => extract_address p l) none

/-- The line state machine of `_extract_visits_from_text`.  State:
the active stop number, its address when already found, and its collected
notes; visits are emitted when a new stop line arrives and at end of page. -/
def visitsGo (p : PDFParser) (cs : Option Nat) (ca : Option (List Char))
    (cn : List (List Char)) (page : Nat) : List (List Char) → List Visit
  | [] =>
    match cs with
    | some n => (create_visit p n ca cn page).toList
    | none => []
  | l :: rest =>
    let line := strip l
    if line.isEmpty then visitsGo p cs ca cn page rest
    else
      match stopMatchFn line with
      | some (n, remText) =>
        let flushed :=
          match cs with
          | some prevStop => (create_visit p prevStop ca cn page).toList
          | none => []
        let remaining_text := strip remText
        let ca' :=
          match extract_address p remaining_text with
          | some a => some a
          | none => lookahead2 p rest
        flushed ++ visitsGo p (some n) ca' [] page rest
      | none =>
        match cs, ca with
        | some _, none =>
          match extract_address p line with
          | some a => visitsGo p cs (some a) cn page rest
          | none => visitsGo p cs ca cn page rest
        | some _, some _ =>
          if headerLine line then visitsGo p cs ca cn page rest
          else visitsGo p cs ca (cn ++ [line]) page rest
        | none, _ => visitsGo p cs ca cn page rest

/-- `PDFParser._extract_visits_from_text`. -/
def extract_visits_from_text (p : PDFParser) (text : List Char) (page_num : Nat) :
    List Visit :=
  visitsGo p none none [] page_num (splitOnChar '\n' text)

/-! ### `parser.py` : `_clean_visits` -/

/-- The filtering/deduplication loop of `_clean_visits`: duplicate stop
numbers (first occurrence wins), short or empty locations, and stops outside
`[1, 100]` are dropped. -/
def cleanGo : List Visit → List Nat → List Visit
  | [], _ => []
  | v :: rest, seen =>
    if v.stop ∈ seen then cleanGo rest seen
    else if v.location.isEmpty || v.location.length < 10 then cleanGo rest seen
    else if v.stop < 1 || v.stop > 100 then cleanGo rest seen
    else v :: cleanGo rest (v.stop :: seen)

/-- Stable insertion by stop number (model of
`cleaned.sort(key=lambda x: x["stop"])`; Python's sort is stable and the
stop keys here are unique, so any stable comparison sort is extensionally
the same function on these inputs). -/
def insertByStop (v : Visit) : List Visit → List Visit
  | [] => [v]
  | w :: ws => if v.stop ≤ w.stop then v :: w :: ws else w :: insertByStop v ws

/-- Insertion sort by stop number. -/
def sortByStop : List Visit → List Visit
  | [] => []
  | v :: vs => insertByStop v (sortByStop vs)

/-- `PDFParser._clean_visits`. -/
def clean_visits (visits : List Visit) : List Visit :=
  sortByStop (cleanGo visits [])

/-- A raw visit candidate as accumulated by the line state machine. -/
structure RawCandidate where
  stop : Nat
  address : Option (List Char)
  notes : List (List Char)
  page : Nat

/-- The batch pipeline: build visits with `_create_visit`, then apply the
`_clean_visits` post-pass. -/
def buildAndClean (cs : List RawCandidate) : List Visit :=
  clean_visits (cs.filterMap (fun c => create_visit pdfParser c.stop c.address c.notes c.page))

/-! ### `business_card_scanner.py` -/

/-- A contact record; every field of the Python dict is optional except the
raw-text `notes`. -/
structure Contact where
  first_name : Option (List Char) := none
  last_name : Option (List Char) := none
  email : Option (List Char) := none
  name : Option (List Char) := none
  company : Option (List Char) := none
  title : Option (List Char) := none
  phone : Option (List Char) := none
  website : Option (List Char) := none
  address : Option (List Char) := none
  notes : List Char := []
deriving DecidableEq, Repr

/-- The email pattern
`r'\b[A-Za-z0-9._%+-]+@[A-Za-z0-9.-]+\.[A-Z|a-z]{2,}\b'` (note that the
character class of the top-level domain literally contains `|`). -/
def emailRE : RE :=
  let localC := .cls (fun c => c.isAlpha || c.isDigit || c == '.' || c == '_' ||
    c == '%' || c == '+' || c == '-')
  let domC := .cls (fun c => c.isAlpha || c.isDigit || c == '.' || c == '-')
  let tldC := .cls (fun c => c.isAlpha || c == '|')
  .seq .wordB
    (.seq (plusR localC)
      (.seq (litC '@')
        (.seq (plusR domC)
          (.seq (litC '.') (.seq tldC (.seq tldC (.seq (.star tldC) .wordB)))))))

/-- The business/title stoplist of `_looks_like_name`. -/
def nameBusinessWords : List (List Char) :=
  ["inc".data, "llc".data, "corp".data, "company".data, "hospital".data,
   "medical".data, "health".data, "center".data, "clinic".data,
   "manager".data, "director".data, "coordinator".data]

/-- `BusinessCardScanner._looks_like_name`. -/
def looks_like_name (t : List Char) : Bool :=
  if (reSearch emailRE t).isSome then false
  else if t.any Char.isDigit then false
  else if t.length > 30 then false
  else if pyIsUpper t then false
  else if nameBusinessWords.any (fun w => isSubstr w (lower t)) then false
  else
    let words := splitWS t
    if words.length < 2 then false
    else words.all (fun w => match w with | [] => true | c :: _ => c.isUpper)

/-- The word stoplist of the second name-extraction strategy. -/
def nameWordStop : List (List Char) :=
  ["inc".data, "llc".data, "corp".data, "company".data, "hospital".data,
   "medical".data, "health".data, "center".data, "clinic".data,
   "the".data, "and".data, "of".data, "for".data]

/-- `BusinessCardScanner._extract_name`: first a line that looks like a
name among the first three non-empty lines, then the capitalized-word
collection fallback. -/
def extract_name (text : List Char) : Option (List Char) :=
  let lines := ((splitOnChar '\n' text).map strip).filter (fun l => !l.isEmpty)
  if lines.isEmpty then none
  else
    match (lines.take 3).find? looks_like_name with
    | some l => some l
    | none =>
      let words := splitWS text
      let name_candidates := words.filter (fun w =>
        !((reSearch emailRE w).isSome || w.any Char.isDigit || lower w ∈ nameWordStop) &&
        headUpper w && w.length > 1 && (w.all Char.isAlpha && !w.isEmpty))
      if 2 ≤ name_candidates.length && name_candidates.length ≤ 3 then
        some (joinSp name_candidates)
      else none

/-- `BusinessCardScanner._parse_contact_info`. -/
def parse_contact_info (text : List Char) : Contact :=
  let base : Contact := { notes := strip text }
  let withEmail : Contact :=
    match reSearch emailRE text with
    | some m =>
      let e := strip (lower (fullOf m))
      let email_parts := splitOnChar '@' e
      let company :=
        if email_parts.length == 2 then
          let domain := (splitOnChar '.' (email_parts.getD 1 [])).headD []
          let domain := replaceChar '_' ' ' (replaceChar '-' ' ' domain)
          some (pyTitle domain)
        else none
      { base with email := some e, company := company }
    | none => base
  match extract_name text with
  | some nm =>
    let name_parts := splitWS nm
    if 2 ≤ name_parts.length then
      { withEmail with
        name := some nm
        first_name := some (strip (name_parts.headD []))
        last_name := some (strip (joinSp name_parts.tail)) }
    else
      { withEmail with name := some nm, first_name := some (strip nm) }
  | none => withEmail

/-- Python truthiness of an optional string field. -/
def pyFalsyS : Option (List Char) → Bool
  | none => true
  | some s => s.isEmpty

/-- `BusinessCardScanner.validate_contact`: lower/strip the email,
title-case the names, strip the company, and normalize blank optional
fields (`title`, `phone`, `website`, `address`) to `None`.  No other
transformation is applied to any field; the Python method performs these
guarded dict writes sequentially on distinct keys, which is the same as
this simultaneous record update. -/
def validate_contact (c : Contact) : Contact :=
  { c with
    email := if !pyFalsyS c.email then c.email.map (fun e => strip (lower e)) else c.email
    first_name :=
      if !pyFalsyS c.first_name then c.first_name.map (fun s => pyTitle (strip s))
      else c.first_name
    last_name :=
      if !pyFalsyS c.last_name then c.last_name.map (fun s => pyTitle (strip s))
      else c.last_name
    name := if !pyFalsyS c.name then c.name.map (fun s => pyTitle (strip s)) else c.name
    company := if !pyFalsyS c.company then c.company.map strip else c.company
    title := if pyFalsyS c.title then none else c.title
    phone := if pyFalsyS c.phone then none else c.phone
    website := if pyFalsyS c.website then none else c.website
    address := if pyFalsyS c.address then none else c.address }

/-! ### Method invocations as state transformers

The Python methods read `self.known_facilities` / `self.address_patterns`
but contain no assignment to any `self` field, so an invocation returns the
receiver unchanged as its post-state. -/

/-- An invocation of `_extract_visits_from_text` as a state transformer. -/
def extractVisitsCall (p : PDFParser) (text : List Char) (page : Nat) :
    List Visit × PDFParser :=
  (extract_visits_from_text p text page, p)

/-- An invocation of `_extract_time_data` as a state transformer. -/
def extractTimeCall (p : PDFParser) (text : List Char) :
    (Option (List Char) × Option ℚ) × PDFParser :=
  (extract_time_data text, p)

/-- A sample scanned contact with a bare ten-digit phone number and a
scheme-less website. -/
def sampleContact : Contact :=
  { phone := some "7195551234".data, website := some "coloradocareassist.com".data }

/-! ## Theorems -/

/-- C3 counterexample: on address `"6001 E Woodmen Rd"` with notes
`["Lead case manager Gail Abeyta"]` the resolver DOES resolve via the
known-facility dictionary tier — the keyword `"er"` occurs inside the word
`"manager"` of the lower-cased search text — so the result is
`"Emergency Room"`, which differs from the street-derived capitalized-run
name `"Woodmen"` the claim announces. -/
theorem woodmen_resolves_via_facility_tier :
    firstFacilityMatch pdfParser.known_facilities
        (lower ("6001 E Woodmen Rd".data ++ ' ' :: joinSp ["Lead case manager Gail Abeyta".data])) =
      some "Emergency Room".data ∧
    infer_business_name pdfParser "6001 E Woodmen Rd".data
        ["Lead case manager Gail Abeyta".data] = "Emergency Room".data ∧
    joinSp (capitalizedRun "6001 E Woodmen Rd".data) = "Woodmen".data ∧
    infer_business_name pdfParser "6001 E Woodmen Rd".data
        ["Lead case manager Gail Abeyta".data] ≠
      joinSp (capitalizedRun "6001 E Woodmen Rd".data) := by
  refine ⟨by decide, by decide, by decide, by decide⟩

/-- C3 amended: for address `"6001 E Woodmen Rd"` with notes
`["Lead case manager Gail Abeyta"]` the business-name resolver resolves in
the known-facility dictionary tier (the keyword `"er"` is a substring of
`"manager"` in the notes) and returns `"Emergency Room"`; the
address-pattern and capitalized-run tiers are never consulted. -/
theorem woodmen_resolves_to_emergency_room :
    infer_business_name pdfParser "6001 E Woodmen Rd".data
      ["Lead case manager Gail Abeyta".data] = "Emergency Room".data := by
  decide

/-- C4: the guard `if match and not total_hours` treats a stored `0.0` as
absent, so hours extraction is not one-writer-wins: on the failing input
`"Total: 0 hours\nExtra: 8 hours"` the first parseable hours match (`0`) is
overwritten by the later match (`8`), while on the first line alone the
extractor does return `0`. -/
theorem time_extractor_overwrites_zero_hours :
    extract_time_data "Total: 0 hours".data = (none, some 0) ∧
    extract_time_data "Total: 0 hours\nExtra: 8 hours".data = (none, some 8) ∧
    (8 : ℚ) ≠ 0 := by
  refine ⟨by decide, by decide, by decide⟩

/-- C5: the classifier returns `"time_tracking"` exactly when the count of
time-indicator terms occurring in the lower-cased text of the first three
pages strictly exceeds the route-indicator count and is nonzero, returns
`"myway_route"` in every other case, and returns `"myway_route"` on any
extraction error (the classifier is a total function, hence never raises). -/
theorem detect_pdf_type_spec (pages : List (Option (List Char))) (err : List Char) :
    (detectFromPages pages = "time_tracking".data ↔
      indicatorScore route_indicators (firstPagesText pages) <
        indicatorScore time_indicators (firstPagesText pages) ∧
      0 < indicatorScore time_indicators (firstPagesText pages)) ∧
    (detectFromPages pages = "time_tracking".data ∨
      detectFromPages pages = "myway_route".data) ∧
    detect_pdf_type (.error err) = "myway_route".data := by
  have hne : "myway_route".data ≠ "time_tracking".data := by decide
  by_cases h1 : indicatorScore route_indicators (firstPagesText pages) <
      indicatorScore time_indicators (firstPagesText pages) <;>
    by_cases h2 : 0 < indicatorScore time_indicators (firstPagesText pages) <;>
      simp [detectFromPages, detect_pdf_type, h1, h2, hne]

/-- C5 witness: a concrete page whose text contains two time indicators and
no route indicator classifies as `"time_tracking"`, via the theorem. -/
theorem detect_pdf_type_spec_witness :
    detectFromPages [some "timesheet hours worked".data] = "time_tracking".data :=
  (detect_pdf_type_spec [some "timesheet hours worked".data] []).1.mpr
    ⟨by decide, by decide⟩

/-- C7 counterexample: a contact whose phone is the ten-digit string
`"7195551234"` and whose website is `"coloradocareassist.com"` is returned
by `validate_contact` with both fields unchanged: the phone is not
reformatted to `"(719) 555-1234"` and no `"https://"` prefix is added. -/
theorem validate_contact_no_formatting :
    (validate_contact sampleContact).phone = some "7195551234".data ∧
    (validate_contact sampleContact).phone ≠ some "(719) 555-1234".data ∧
    (validate_contact sampleContact).website = some "coloradocareassist.com".data ∧
    ciPrefixOf "https://".data ((validate_contact sampleContact).website.getD []) = false := by
  refine ⟨by decide, by decide, by decide, by decide⟩

/-- C7 amended: `validate_contact` applies no transformation at all to the
`phone` and `website` fields beyond normalizing Python-falsy (absent or
empty) values to `None`; the same holds for `title` and `address`. -/
theorem validate_contact_passthrough (c : Contact) :
    (validate_contact c).phone = (if pyFalsyS c.phone then none else c.phone) ∧
    (validate_contact c).website = (if pyFalsyS c.website then none else c.website) ∧
    (validate_contact c).title = (if pyFalsyS c.title then none else c.title) ∧
    (validate_contact c).address = (if pyFalsyS c.address then none else c.address) :=
  ⟨rfl, rfl, rfl, rfl⟩

/-- C8: on the OCR text `"John Smith\nAcme Health\njohn.smith@acmehealth.com"`
the contact-field extractor returns exactly the announced email, the company
`"Acmehealth"` (first label of the email domain, title-cased), the name
`"John Smith"`, and its first/last split. -/
theorem business_card_example :
    (parse_contact_info "John Smith\nAcme Health\njohn.smith@acmehealth.com".data).email =
      some "john.smith@acmehealth.com".data ∧
    (parse_contact_info "John Smith\nAcme Health\njohn.smith@acmehealth.com".data).company =
      some "Acmehealth".data ∧
    (parse_contact_info "John Smith\nAcme Health\njohn.smith@acmehealth.com".data).name =
      some "John Smith".data ∧
    (parse_contact_info "John Smith\nAcme Health\njohn.smith@acmehealth.com".data).first_name =
      some "John".data ∧
    (parse_contact_info "John Smith\nAcme Health\njohn.smith@acmehealth.com".data).last_name =
      some "Smith".data := by
  refine ⟨by decide, by decide, by decide, by decide, by decide⟩

/-- C9: route-visit extraction and time-data extraction are deterministic
and stateless across invocations: invoking a method leaves the parser state
(in particular the facility dictionary and the regex tables) unchanged, and
a second invocation on the same text from the post-state returns the same
result as the first. -/
theorem parsing_stateless_deterministic (p : PDFParser) (text : List Char) (page : Nat) :
    (extractVisitsCall p text page).2 = p ∧
    (extractVisitsCall (extractVisitsCall p text page).2 text page).1 =
      (extractVisitsCall p text page).1 ∧
    (extractTimeCall p text).2 = p ∧
    (extractTimeCall (extractTimeCall p text).2 text).1 = (extractTimeCall p text).1 ∧
    (extractVisitsCall p text page).2.known_facilities = p.known_facilities ∧
    (extractVisitsCall p text page).2.address_patterns = p.address_patterns :=
  ⟨rfl, rfl, rfl, rfl, rfl, rfl⟩

/-! ### The route state machine keeps scanning for an address (C6) -/

/-- An empty line is never a stop line. -/
theorem stopMatchFn_nil : stopMatchFn [] = none := by decide

/-- One step of the line loop: a blank line is skipped. -/
theorem visitsGo_cons_blank (p : PDFParser) (cs : Option Nat) (ca : Option (List Char))
    (cn : List (List Char)) (page : Nat) (l : List Char) (rest : List (List Char))
    (he : (strip l).isEmpty = true) :
    visitsGo p cs ca cn page (l :: rest) = visitsGo p cs ca cn page rest := by
  rw [visitsGo.eq_def]
  simp [he]

/-- One step of the line loop: with a stop already active, a stop line
flushes the active visit and opens a new one, seeding the new address from
the line remainder or the two-line look-ahead. -/
theorem visitsGo_cons_stop_active (p : PDFParser) (k : Nat) (ca : Option (List Char))
    (cn : List (List Char)) (page : Nat) (l : List Char) (rest : List (List Char))
    (n : Nat) (rem : List Char)
    (he : ¬(strip l).isEmpty = true) (hs : stopMatchFn (strip l) = some (n, rem)) :
    visitsGo p (some k) ca cn page (l :: rest) =
      (create_visit p k ca cn page).toList ++
      visitsGo p (some n)
        (match extract_address p (strip rem) with
          | some a => some a
          | none => lookahead2 p rest) [] page rest := by
  rw [visitsGo.eq_def]
  simp [he, hs]

/-- One step of the line loop: with no stop active yet, a stop line opens a
new one. -/
theorem visitsGo_cons_stop_fresh (p : PDFParser)
    (cn : List (List Char)) (page : Nat) (l : List Char) (rest : List (List Char))
    (n : Nat) (rem : List Char) (ca : Option (List Char))
    (he : ¬(strip l).isEmpty = true) (hs : stopMatchFn (strip l) = some (n, rem)) :
    visitsGo p none ca cn page (l :: rest) =
      visitsGo p (some n)
        (match extract_address p (strip rem) with
          | some a => some a
          | none => lookahead2 p rest) [] page rest := by
  rw [visitsGo.eq_def]
  simp [he, hs]

/-- One step of the line loop: while the address is missing, a non-stop
line is only probed for an address. -/
theorem visitsGo_cons_probe (p : PDFParser) (k : Nat) (cn : List (List Char))
    (page : Nat) (l : List Char) (rest : List (List Char))
    (he : ¬(strip l).isEmpty = true) (hs : stopMatchFn (strip l) = none) :
    visitsGo p (some k) none cn page (l :: rest) =
      visitsGo p (some k) (extract_address p (strip l)) cn page rest := by
  rw [visitsGo.eq_def]
  simp only [he, hs]
  cases extract_address p (strip l) <;> simp

/-- One step of the line loop: with stop and address present, a non-stop
line is appended to the notes unless it is a header line. -/
theorem visitsGo_cons_note (p : PDFParser) (k : Nat) (a : List Char)
    (cn : List (List Char)) (page : Nat) (l : List Char) (rest : List (List Char))
    (he : ¬(strip l).isEmpty = true) (hs : stopMatchFn (strip l) = none) :
    visitsGo p (some k) (some a) cn page (l :: rest) =
      if headerLine (strip l) then visitsGo p (some k) (some a) cn page rest
      else visitsGo p (some k) (some a) (cn ++ [strip l]) page rest := by
  rw [visitsGo.eq_def]
  simp [he, hs]

/-- While a stop is active with no address yet, lines that are neither stop
lines nor address candidates leave the machine state unchanged. -/
theorem visitsGo_skip (p : PDFParser) (n page : Nat) (ls : List (List Char))
    (pre : List (List Char))
    (h : ∀ l ∈ pre, stopMatchFn (strip l) = none ∧ extract_address p (strip l) = none) :
    visitsGo p (some n) none [] page (pre ++ ls) = visitsGo p (some n) none [] page ls := by
  induction pre with
  | nil => rfl
  | cons l pre ih =>
    obtain ⟨hs, ha⟩ := h l (List.mem_cons_self l pre)
    have ih' := ih (fun x hx => h x (List.mem_cons_of_mem l hx))
    rw [List.cons_append]
    by_cases he : (strip l).isEmpty
    · rw [visitsGo_cons_blank p (some n) none [] page l _ he, ih']
    · rw [visitsGo_cons_probe p n [] page l _ he hs, ha, ih']

/-- Once the active stop has an address, that stop is emitted (at the next
stop line or at the end of the page) as a visit built by `_create_visit`
from that very address; notes may still accumulate. -/
theorem visitsGo_emit (p : PDFParser) (n page : Nat) (a : List Char) :
    ∀ (suf : List (List Char)) (notes : List (List Char)),
    ∃ v ns tail, visitsGo p (some n) (some a) notes page suf = v :: tail ∧
      create_visit p n (some a) ns page = some v := by
  intro suf
  induction suf with
  | nil =>
    intro notes
    exact ⟨_, notes, [], rfl, rfl⟩
  | cons l rest ih =>
    intro notes
    by_cases he : (strip l).isEmpty
    · obtain ⟨v, ns, tail, hgo, hcv⟩ := ih notes
      exact ⟨v, ns, tail, by rw [visitsGo_cons_blank p (some n) (some a) notes page l rest he]; exact hgo, hcv⟩
    · cases hs : stopMatchFn (strip l) with
      | some y =>
        obtain ⟨m, remT⟩ := y
        obtain ⟨v, hv⟩ : ∃ v, create_visit p n (some a) notes page = some v := ⟨_, rfl⟩
        have hres : visitsGo p (some n) (some a) notes page (l :: rest) =
            v :: visitsGo p (some m)
              (match extract_address p (strip remT) with
                | some a2 => some a2
                | none => lookahead2 p rest) [] page rest := by
          rw [visitsGo_cons_stop_active p n (some a) notes page l rest m remT he hs, hv]
          rfl
        exact ⟨v, notes, _, hres, hv⟩
      | none =>
        by_cases hh : headerLine (strip l)
        · obtain ⟨v, ns, tail, hgo, hcv⟩ := ih notes
          refine ⟨v, ns, tail, ?_, hcv⟩
          rw [visitsGo_cons_note p n a notes page l rest he hs, if_pos hh]
          exact hgo
        · obtain ⟨v, ns, tail, hgo, hcv⟩ := ih (notes ++ [strip l])
          refine ⟨v, ns, tail, ?_, hcv⟩
          rw [visitsGo_cons_note p n a notes page l rest he hs, if_neg hh]
          exact hgo

/-- C6 counterexample: in this page text the only address candidate is on
the fifth line — four lines after the stop line `"1. go"`, with no
intervening stop-number line (the three middle lines are neither stop lines
nor address candidates) — and it IS assigned as stop 1's address. -/
theorem late_address_assigned_counterexample :
    extract_visits_from_text pdfParser
        "1. go\nalpha\nbeta\ngamma\nat 123 Peak Vista Way".data 1 =
      [⟨1, "Peak Vista Community Health Centers".data, "123 Peak Vista Way".data,
        "Colorado Springs".data, []⟩] ∧
    (∀ l ∈ ["alpha".data, "beta".data, "gamma".data],
      stopMatchFn l = none ∧ extract_address pdfParser l = none) ∧
    stopMatchFn "at 123 Peak Vista Way".data = none ∧
    extract_address pdfParser "at 123 Peak Vista Way".data = some "123 Peak Vista Way".data := by
  refine ⟨by decide, by decide, by decide, by decide⟩

/-- C6 amended: the two-line bound applies only to the immediate look-ahead
at the stop line; after that the machine keeps testing every later line, so
an address candidate that first appears three or more lines after the
stop-number line, with no intervening stop-number line and no earlier
address candidate, IS assigned as that stop's address. -/
theorem late_address_assigned (text stopLine addrLine rem a : List Char)
    (pre suf : List (List Char)) (n page : Nat)
    (hsplit : splitOnChar '\n' text = stopLine :: pre ++ addrLine :: suf)
    (hstop : stopMatchFn (strip stopLine) = some (n, rem))
    (hrem : extract_address pdfParser (strip rem) = none)
    (hpre : ∀ l ∈ pre, stopMatchFn (strip l) = none ∧
      extract_address pdfParser (strip l) = none ∧ extract_address pdfParser l = none)
    (hlen : 2 ≤ pre.length)
    (haddr1 : stopMatchFn (strip addrLine) = none)
    (haddr2 : extract_address pdfParser (strip addrLine) = some a) :
    ∃ v ns tail, extract_visits_from_text pdfParser text page = v :: tail ∧
      create_visit pdfParser n (some a) ns page = some v ∧
      v.stop = n ∧ v.location = clean_address a := by
  rcases pre with _ | ⟨p1, pre⟩
  · simp at hlen
  rcases pre with _ | ⟨p2, pre⟩
  · simp at hlen
  have hne : ¬(strip stopLine).isEmpty := by
    intro hempty
    rw [List.isEmpty_iff.mp hempty, stopMatchFn_nil] at hstop
    exact Option.noConfusion hstop
  have hane : ¬(strip addrLine).isEmpty := by
    intro hempty
    rw [List.isEmpty_iff.mp hempty] at haddr2
    have : extract_address pdfParser [] = none := by decide
    rw [this] at haddr2
    exact Option.noConfusion haddr2
  have hlook : lookahead2 pdfParser (p1 :: p2 :: (pre ++ addrLine :: suf)) = none := by
    simp only [lookahead2, List.take, List.foldl]
    rw [(hpre p1 (by simp)).2.2, (hpre p2 (by simp)).2.2]
  have hca : (match extract_address pdfParser (strip rem) with
      | some a2 => some a2
      | none => lookahead2 pdfParser (p1 :: p2 :: (pre ++ addrLine :: suf))) =
      (none : Option (List Char)) := by
    rw [hrem]
    exact hlook
  have hskip := visitsGo_skip pdfParser n page (addrLine :: suf) (p1 :: p2 :: pre)
    (fun l hl => ⟨(hpre l (by simpa using hl)).1, (hpre l (by simpa using hl)).2.1⟩)
  simp only [List.cons_append] at hskip
  obtain ⟨v, ns, tail, hgo, hcv⟩ := visitsGo_emit pdfParser n page a suf []
  have hv' := hcv
  simp only [create_visit, Option.some.injEq] at hv'
  refine ⟨v, ns, tail, ?_, hcv, ?_, ?_⟩
  · unfold extract_visits_from_text
    rw [hsplit, List.cons_append,
      visitsGo_cons_stop_fresh pdfParser [] page stopLine _ n rem none hne hstop]
    simp only [List.cons_append]
    rw [hca, hskip,
      visitsGo_cons_probe pdfParser n [] page addrLine suf hane haddr1, haddr2]
    exact hgo
  · rw [← hv']
  · rw [← hv']

/-- C6 amended, witness: applying the theorem to the counterexample page,
whose address line sits four lines below the stop line. -/
theorem late_address_assigned_witness :
    ∃ v ns tail,
      extract_visits_from_text pdfParser
          "1. go\nalpha\nbeta\ngamma\nat 123 Peak Vista Way".data 1 = v :: tail ∧
      create_visit pdfParser 1 (some "123 Peak Vista Way".data) ns 1 = some v ∧
      v.stop = 1 ∧ v.location = clean_address "123 Peak Vista Way".data :=
  late_address_assigned "1. go\nalpha\nbeta\ngamma\nat 123 Peak Vista Way".data
    "1. go".data "at 123 Peak Vista Way".data " go".data "123 Peak Vista Way".data
    ["alpha".data, "beta".data, "gamma".data] [] 1 1
    (by decide) (by decide) (by decide) (by decide) (by decide) (by decide) (by decide)

/-! ### Invariants of the `_clean_visits` post-pass (C1) -/

/-- Every survivor of the filtering loop came from the input and satisfies
the three filters. -/
theorem cleanGo_mem : ∀ (vs : List Visit) (seen : List Nat) (v : Visit),
    v ∈ cleanGo vs seen →
    v ∈ vs ∧ ¬v.location.isEmpty ∧ 10 ≤ v.location.length ∧ 1 ≤ v.stop ∧ v.stop ≤ 100 := by
  intro vs
  induction vs with
  | nil => intro seen v h; exact absurd h (by simp [cleanGo])
  | cons w vs ih =>
    intro seen v h
    rw [cleanGo] at h
    by_cases h1 : w.stop ∈ seen
    · rw [if_pos h1] at h
      obtain ⟨hmem, hrest⟩ := ih seen v h
      exact ⟨List.mem_cons_of_mem w hmem, hrest⟩
    · rw [if_neg h1] at h
      by_cases h2 : w.location.isEmpty || w.location.length < 10
      · rw [if_pos h2] at h
        obtain ⟨hmem, hrest⟩ := ih seen v h
        exact ⟨List.mem_cons_of_mem w hmem, hrest⟩
      · rw [if_neg h2] at h
        by_cases h3 : w.stop < 1 || w.stop > 100
        · rw [if_pos h3] at h
          obtain ⟨hmem, hrest⟩ := ih seen v h
          exact ⟨List.mem_cons_of_mem w hmem, hrest⟩
        · rw [if_neg h3] at h
          simp only [Bool.or_eq_true, not_or, decide_eq_true_eq] at h2 h3
          rcases List.mem_cons.mp h with rfl | htail
          · exact ⟨List.mem_cons_self v vs, h2.1, by omega, by omega, by omega⟩
          · obtain ⟨hmem, hrest⟩ := ih (w.stop :: seen) v htail
            exact ⟨List.mem_cons_of_mem w hmem, hrest⟩

/-- The stop numbers surviving the filtering loop avoid `seen` and are
pairwise distinct. -/
theorem cleanGo_stops_nodup : ∀ (vs : List Visit) (seen : List Nat),
    ((cleanGo vs seen).map Visit.stop).Nodup ∧
    ∀ s ∈ (cleanGo vs seen).map Visit.stop, s ∉ seen := by
  intro vs
  induction vs with
  | nil => intro seen; simp [cleanGo]
  | cons w vs ih =>
    intro seen
    rw [cleanGo]
    by_cases h1 : w.stop ∈ seen
    · rw [if_pos h1]; exact ih seen
    · rw [if_neg h1]
      by_cases h2 : w.location.isEmpty || w.location.length < 10
      · rw [if_pos h2]; exact ih seen
      · rw [if_neg h2]
        by_cases h3 : w.stop < 1 || w.stop > 100
        · rw [if_pos h3]; exact ih seen
        · rw [if_neg h3]
          obtain ⟨hnd, havoid⟩ := ih (w.stop :: seen)
          refine ⟨?_, ?_⟩
          · simp only [List.map_cons, List.nodup_cons]
            exact ⟨fun hmem => (havoid w.stop hmem) (List.mem_cons_self _ _), hnd⟩
          · intro s hs
            simp only [List.map_cons, List.mem_cons] at hs
            rcases hs with rfl | hs
            · exact h1
            · intro hseen
              exact (havoid s hs) (List.mem_cons_of_mem _ hseen)

/-- Inserting preserves the multiset of visits. -/
theorem insertByStop_perm (v : Visit) :
    ∀ l : List Visit, List.Perm (insertByStop v l) (v :: l) := by
  intro l
  induction l with
  | nil => exact List.Perm.refl _
  | cons w ws ih =>
    rw [insertByStop]
    by_cases h : v.stop ≤ w.stop
    · rw [if_pos h]
    · rw [if_neg h]
      exact (ih.cons w).trans (List.Perm.swap v w ws)

/-- Sorting preserves the multiset of visits. -/
theorem sortByStop_perm : ∀ l : List Visit, List.Perm (sortByStop l) l := by
  intro l
  induction l with
  | nil => exact List.Perm.refl _
  | cons v vs ih =>
    exact (insertByStop_perm v (sortByStop vs)).trans (ih.cons v)

/-- Inserting into a stop-sorted list keeps it stop-sorted. -/
theorem insertByStop_sorted (v : Visit) :
    ∀ l : List Visit, l.Pairwise (fun x y => x.stop ≤ y.stop) →
    (insertByStop v l).Pairwise (fun x y => x.stop ≤ y.stop) := by
  intro l
  induction l with
  | nil => intro _; simp [insertByStop]
  | cons w ws ih =>
    intro hp
    obtain ⟨hw, hws⟩ := List.pairwise_cons.mp hp
    rw [insertByStop]
    by_cases h : v.stop ≤ w.stop
    · rw [if_pos h]
      refine List.pairwise_cons.mpr ⟨?_, hp⟩
      intro z hz
      rcases List.mem_cons.mp hz with rfl | hz
      · exact h
      · exact le_trans h (hw z hz)
    · rw [if_neg h]
      refine List.pairwise_cons.mpr ⟨?_, ih hws⟩
      intro z hz
      have hz' := (insertByStop_perm v ws).mem_iff.mp hz
      rcases List.mem_cons.mp hz' with rfl | hz'
      · omega
      · exact hw z hz'

/-- The sort produces a stop-sorted list. -/
theorem sortByStop_sorted : ∀ l : List Visit,
    (sortByStop l).Pairwise (fun x y => x.stop ≤ y.stop) := by
  intro l
  induction l with
  | nil => simp [sortByStop]
  | cons v vs ih => exact insertByStop_sorted v (sortByStop vs) ih

/-- A successful facility lookup returns one of the table's canonical
names. -/
theorem firstFacilityMatch_mem : ∀ (table : List (List Char × List Char)) (text v : List Char),
    firstFacilityMatch table text = some v → v ∈ table.map Prod.snd := by
  intro table
  induction table with
  | nil => intro text v h; exact absurd h (by simp [firstFacilityMatch])
  | cons kv rest ih =>
    intro text v h
    rw [firstFacilityMatch] at h
    by_cases hk : isSubstr kv.1 text
    · rw [if_pos hk] at h
      cases h
      exact List.mem_cons_self _ _
    · rw [if_neg hk] at h
      exact List.mem_cons_of_mem _ (ih text v h)

/-- A successful per-note facility lookup returns one of the table's
canonical names. -/
theorem firstFacilityNotes_mem : ∀ (table : List (List Char × List Char))
    (notes : List (List Char)) (v : List Char),
    firstFacilityNotes table notes = some v → v ∈ table.map Prod.snd := by
  intro table notes
  induction notes with
  | nil => intro v h; exact absurd h (by simp [firstFacilityNotes])
  | cons note rest ih =>
    intro v h
    rw [firstFacilityNotes] at h
    cases hm : firstFacilityMatch table (lower note) with
    | some nm => rw [hm] at h; cases h; exact firstFacilityMatch_mem table (lower note) v hm
    | none => rw [hm] at h; exact ih v h

/-- Every canonical name in the facility table is non-empty. -/
theorem knownFacilities_values_ne_empty :
    ∀ v ∈ knownFacilitiesInit.map Prod.snd, ¬v.isEmpty := by decide

/-- The business-name resolver never returns an empty string: every tier
either yields a table value, passes the Python-truthiness guard, or falls
back to the literal `"Healthcare Facility"`. -/
theorem infer_business_name_ne_empty (addr : List Char) (notes : List (List Char)) :
    ¬(infer_business_name pdfParser addr notes).isEmpty := by
  rw [infer_business_name]
  cases h1 : firstFacilityMatch pdfParser.known_facilities
      (lower (addr ++ ' ' :: joinSp notes)) with
  | some nm =>
    exact knownFacilities_values_ne_empty nm (firstFacilityMatch_mem _ _ nm h1)
  | none =>
    cases h2 : firstFacilityNotes pdfParser.known_facilities notes with
    | some nm =>
      exact knownFacilities_values_ne_empty nm (firstFacilityNotes_mem _ _ nm h2)
    | none =>
      cases h3 : extract_business_name_from_address addr notes with
      | some bn =>
        show ¬(if !bn.isEmpty && bn ≠ "Healthcare Facility".data then bn
            else "Healthcare Facility".data).isEmpty = true
        by_cases h4 : !bn.isEmpty && bn ≠ "Healthcare Facility".data
        · rw [if_pos h4]
          have := (Bool.and_eq_true _ _ ▸ h4).1
          simp only [Bool.not_eq_true'] at this
          simp [this]
        · rw [if_neg h4]; decide
      | none => decide

/-- A visit built by `_create_visit` carries an inferred business name. -/
theorem create_visit_business (p : PDFParser) (s : Nat) (a : Option (List Char))
    (ns : List (List Char)) (pg : Nat) (v : Visit)
    (h : create_visit p s a ns pg = some v) :
    ∃ addr, a = some addr ∧ v.business_name = infer_business_name p addr ns := by
  cases a with
  | none => exact absurd h (by simp [create_visit])
  | some addr =>
    refine ⟨addr, rfl, ?_⟩
    simp only [create_visit, Option.some.injEq] at h
    rw [← h]

/-- C1: after the batch post-pass, every output record has a non-empty
location of at least 10 characters, a stop number in `[1, 100]` and a
non-empty business name, and the output stop numbers are strictly
increasing (hence pairwise unique and sorted ascending). -/
theorem clean_visits_invariants (cs : List RawCandidate) :
    (∀ v ∈ buildAndClean cs,
      ¬v.location.isEmpty ∧ 10 ≤ v.location.length ∧
      1 ≤ v.stop ∧ v.stop ≤ 100 ∧ ¬v.business_name.isEmpty) ∧
    ((buildAndClean cs).map Visit.stop).Pairwise (· < ·) := by
  unfold buildAndClean clean_visits
  set built := cs.filterMap (fun c => create_visit pdfParser c.stop c.address c.notes c.page) with hbuilt
  constructor
  · intro v hv
    have hv' : v ∈ cleanGo built [] := (sortByStop_perm (cleanGo built [])).mem_iff.mp hv
    obtain ⟨hmem, hloc1, hloc2, hs1, hs2⟩ := cleanGo_mem built [] v hv'
    obtain ⟨c, _, hc⟩ := List.mem_filterMap.mp (hbuilt ▸ hmem)
    obtain ⟨addr, -, hbus⟩ := create_visit_business pdfParser c.stop c.address c.notes c.page v hc
    exact ⟨hloc1, hloc2, hs1, hs2, hbus ▸ infer_business_name_ne_empty addr c.notes⟩
  · have hsorted := sortByStop_sorted (cleanGo built [])
    have hnd : ((sortByStop (cleanGo built [])).map Visit.stop).Nodup :=
      (((sortByStop_perm (cleanGo built [])).map Visit.stop).nodup_iff).mpr
        (cleanGo_stops_nodup built []).1
    have hle : ((sortByStop (cleanGo built [])).map Visit.stop).Pairwise (· ≤ ·) :=
      List.pairwise_map.mpr hsorted
    exact (hle.and hnd).imp (fun h => lt_of_le_of_ne h.1 h.2)

/-- C1 witness: the theorem applied to a concrete two-candidate batch. -/
theorem clean_visits_invariants_witness :
    ((buildAndClean [⟨5, some "123 Main Street extra".data, [], 1⟩,
       ⟨2, some "77 Pine Ave Colorado".data, [], 1⟩]).map Visit.stop).Pairwise (· < ·) :=
  (clean_visits_invariants _).2

/-! ### First-match facility lookup (C2)

`_infer_business_name` searches `address.lower() + " "` (the joined text
with an empty notes list); the trailing space cannot complete a keyword
match because no keyword ends in a space, so the lookup coincides with the
lookup over the lower-cased address itself. -/

/-- The empty pattern is a prefix of everything. -/
theorem nil_isPrefixOf_eq (l : List Char) : [].isPrefixOf l = true := by
  cases l <;> rfl

/-- A prefix of `s` is a prefix of any extension of `s`. -/
theorem isPrefixOf_append (k : List Char) :
    ∀ (s t : List Char), k.isPrefixOf s = true → k.isPrefixOf (s ++ t) = true := by
  induction k with
  | nil => intro s t _; exact nil_isPrefixOf_eq _
  | cons a as ih =>
    intro s t h
    cases s with
    | nil => exact absurd h (by simp [List.isPrefixOf])
    | cons b bs =>
      simp only [List.isPrefixOf, Bool.and_eq_true] at h
      simp only [List.cons_append, List.isPrefixOf, Bool.and_eq_true]
      exact ⟨h.1, ih bs t h.2⟩

/-- A prefix of `s ++ [c]` is a prefix of `s` or the whole of `s ++ [c]`. -/
theorem isPrefixOf_concat_split (c : Char) : ∀ (k s : List Char),
    k.isPrefixOf (s ++ [c]) = true → k.isPrefixOf s = true ∨ k = s ++ [c] := by
  intro k
  induction k with
  | nil => intro s _; exact Or.inl (nil_isPrefixOf_eq s)
  | cons a as ih =>
    intro s h
    cases s with
    | nil =>
      simp only [List.nil_append, List.isPrefixOf, Bool.and_eq_true] at h
      cases as with
      | nil => exact Or.inr (by simp [beq_iff_eq.mp h.1])
      | cons x xs => exact absurd h.2 (by simp [List.isPrefixOf])
    | cons b bs =>
      simp only [List.cons_append, List.isPrefixOf, Bool.and_eq_true] at h
      rcases ih bs h.2 with h2 | h2
      · exact Or.inl (by simp [List.isPrefixOf, h.1, h2])
      · exact Or.inr (by simp [beq_iff_eq.mp h.1, h2])

/-- Appending a character that the pattern does not end with changes
nothing about substring containment. -/
theorem isSubstr_concat (k : List Char) (c : Char) (h : k.getLast? ≠ some c) :
    ∀ s : List Char, isSubstr k (s ++ [c]) = isSubstr k s := by
  intro s
  induction s with
  | nil =>
    cases k with
    | nil => rfl
    | cons a as =>
      cases as with
      | nil =>
        have hac : (a == c) = false := by
          simp only [List.getLast?_singleton] at h
          simp only [beq_eq_false_iff_ne, ne_eq]
          exact fun hc => h (by rw [hc])
        simp [isSubstr, List.isPrefixOf, hac]
      | cons x xs => simp [isSubstr, List.isPrefixOf]
  | cons b bs ih =>
    have hpre : (k.isPrefixOf (b :: bs ++ [c])) = (k.isPrefixOf (b :: bs)) := by
      cases hp : k.isPrefixOf (b :: bs ++ [c]) with
      | true =>
        rcases isPrefixOf_concat_split c k (b :: bs) (by simpa using hp) with h2 | h2
        · exact h2.symm
        · exact absurd (h2 ▸ List.getLast?_concat _) h
      | false =>
        cases hq : k.isPrefixOf (b :: bs) with
        | true =>
          have := isPrefixOf_append k (b :: bs) [c] hq
          rw [show (b :: bs) ++ [c] = b :: bs ++ [c] from rfl] at this
          rw [this] at hp
          exact hp.symm
        | false => rfl
    show (k.isPrefixOf (b :: bs ++ [c]) || isSubstr k (bs ++ [c])) =
      (k.isPrefixOf (b :: bs) || isSubstr k bs)
    rw [hpre, ih]

/-- A facility table none of whose keywords ends in a space gives the same
first match on `s ++ [' ']` as on `s`. -/
theorem firstFacilityMatch_concat_space :
    ∀ (table : List (List Char × List Char)) (s : List Char),
    (∀ kv ∈ table, kv.1.getLast? ≠ some ' ') →
    firstFacilityMatch table (s ++ [' ']) = firstFacilityMatch table s := by
  intro table
  induction table with
  | nil => intro s _; rfl
  | cons kv rest ih =>
    intro s htab
    rw [firstFacilityMatch, firstFacilityMatch,
      isSubstr_concat kv.1 ' ' (htab kv (List.mem_cons_self _ _)) s]
    by_cases hk : isSubstr kv.1 s
    · rw [if_pos hk, if_pos hk]
    · rw [if_neg hk, if_neg hk]
      exact ih s (fun x hx => htab x (List.mem_cons_of_mem _ hx))

/-- C2: whenever some keyword of the facility dictionary occurs in the
lower-cased address, resolving the business name with that address and an
empty notes list returns the canonical name of the first such dictionary
entry, in the fixed table order. -/
theorem facility_first_match_wins (addr v : List Char)
    (h : firstFacilityMatch pdfParser.known_facilities (lower addr) = some v) :
    infer_business_name pdfParser addr [] = v := by
  rw [infer_business_name]
  have htxt : lower (addr ++ ' ' :: joinSp []) = lower addr ++ [' '] := by
    show lower (addr ++ [' ']) = lower addr ++ [' ']
    rw [lower, List.map_append]
    rfl
  rw [htxt,
    firstFacilityMatch_concat_space pdfParser.known_facilities (lower addr) (by decide), h]

/-- C2 witness: `"penrose hospital"` is the first keyword occurring in the
lower-cased address `"123 Penrose Hospital Dr"`, and the resolver returns
its canonical name. -/
theorem facility_first_match_wins_witness :
    firstFacilityMatch pdfParser.known_facilities (lower "123 Penrose Hospital Dr".data) =
      some "Penrose Hospital".data ∧
    infer_business_name pdfParser "123 Penrose Hospital Dr".data [] = "Penrose Hospital".data :=
  ⟨by decide, facility_first_match_wins "123 Penrose Hospital Dr".data
    "Penrose Hospital".data (by decide)⟩

/-! ### The suffixed address patterns are redundant (C10) -/

/-- The continuation type of the matcher. -/
abbrev MCont (ρ : Type) :=
  Option Char → List Char → Option (List Char × List Char) → Option ρ

/-- The type of the fuel-decremented re-entry function of the matcher. -/
abbrev MNext (ρ : Type) :=
  RE → Option Char → List Char → Option (List Char × List Char) → MCont ρ → Option ρ

/-- Success of the matcher is monotone in the continuation (and in the
re-entry function): a match that succeeds with a stricter continuation also
succeeds with a laxer one. -/
theorem matchGo_mono {ρ ρ' : Type} (next : MNext ρ) (next' : MNext ρ')
    (hnext : ∀ (r : RE) prev s g (k : MCont ρ) (k' : MCont ρ'),
      (∀ p1 s1 g1, (k p1 s1 g1).isSome → (k' p1 s1 g1).isSome) →
      (next r prev s g k).isSome → (next' r prev s g k').isSome) :
    ∀ (r : RE) prev s g (k : MCont ρ) (k' : MCont ρ'),
      (∀ p1 s1 g1, (k p1 s1 g1).isSome → (k' p1 s1 g1).isSome) →
      (matchGo next r prev s g k).isSome → (matchGo next' r prev s g k').isSome := by
  intro r
  induction r with
  | eps =>
    intro prev s g k k' hk h
    exact hk _ _ _ h
  | cls p =>
    intro prev s g k k' hk h
    cases s with
    | nil => simp [matchGo] at h
    | cons c t =>
      simp only [matchGo] at h ⊢
      by_cases hc : p c
      · rw [if_pos hc] at h ⊢
        exact hk _ _ _ h
      · rw [if_neg hc] at h
        simp at h
  | seq a b iha ihb =>
    intro prev s g k k' hk h
    simp only [matchGo] at h ⊢
    exact iha _ _ _ _ _ (fun p1 s1 g1 => ihb _ _ _ _ _ hk) h
  | alt a b iha ihb =>
    intro prev s g k k' hk h
    simp only [matchGo] at h ⊢
    cases hA : matchGo next a prev s g k with
    | some res =>
      have hA' : (matchGo next' a prev s g k').isSome :=
        iha _ _ _ _ _ hk (by rw [hA]; rfl)
      obtain ⟨res', hres'⟩ := Option.isSome_iff_exists.mp hA'
      rw [hres']
      rfl
    | none =>
      rw [hA] at h
      have hB : (matchGo next b prev s g k).isSome := h
      have hB' := ihb _ _ _ _ _ hk hB
      cases hA' : matchGo next' a prev s g k' with
      | some res' => rfl
      | none =>
        obtain ⟨res', hres'⟩ := Option.isSome_iff_exists.mp hB'
        rw [hres']
        rfl
  | star a iha =>
    intro prev s g k k' hk h
    simp only [matchGo] at h ⊢
    have hbody : ∀ p1 s1 g1,
        ((if s1.length < s.length then next (.star a) p1 s1 g1 k else none)).isSome →
        ((if s1.length < s.length then next' (.star a) p1 s1 g1 k' else none)).isSome := by
      intro p1 s1 g1 hb
      by_cases hlt : s1.length < s.length
      · rw [if_pos hlt] at hb ⊢
        exact hnext _ _ _ _ _ _ hk hb
      · rw [if_neg hlt] at hb
        simp at hb
    cases hA : matchGo next a prev s g
        (fun p1 s1 g1 => if s1.length < s.length then next (.star a) p1 s1 g1 k else none) with
    | some res =>
      have hA' : (matchGo next' a prev s g
          (fun p1 s1 g1 => if s1.length < s.length then next' (.star a) p1 s1 g1 k' else none)).isSome :=
        iha _ _ _ _ _ hbody (by rw [hA]; rfl)
      obtain ⟨res', hres'⟩ := Option.isSome_iff_exists.mp hA'
      rw [hres']
      rfl
    | none =>
      rw [hA] at h
      have hK : (k prev s g).isSome := h
      cases hA' : matchGo next' a prev s g
          (fun p1 s1 g1 => if s1.length < s.length then next' (.star a) p1 s1 g1 k' else none) with
      | some res' => rfl
      | none =>
        obtain ⟨res', hres'⟩ := Option.isSome_iff_exists.mp (hk _ _ _ hK)
        rw [hres']
        rfl
  | grp a iha =>
    intro prev s g k k' hk h
    simp only [matchGo] at h ⊢
    exact iha _ _ _ _ _ (fun p1 s1 g1 => hk _ _ _) h
  | wordB =>
    intro prev s g k k' hk h
    simp only [matchGo] at h ⊢
    by_cases hb : atWordBoundary prev s
    · rw [if_pos hb] at h ⊢
      exact hk _ _ _ h
    · rw [if_neg hb] at h
      simp at h

/-- Success of the fuel-indexed matcher is monotone in the continuation. -/
theorem matchC_isSome_mono : ∀ (fuel : Nat) {ρ ρ' : Type} (r : RE) prev s g
    (k : MCont ρ) (k' : MCont ρ'),
    (∀ p1 s1 g1, (k p1 s1 g1).isSome → (k' p1 s1 g1).isSome) →
    (matchC fuel r prev s g k).isSome → (matchC fuel r prev s g k').isSome := by
  intro fuel
  induction fuel with
  | zero => intro ρ ρ' r prev s g k k' _ h; simp [matchC] at h
  | succ n ih =>
    intro ρ ρ' r prev s g k k' hk h
    exact matchGo_mono (matchC n) (matchC n)
      (fun r' p' s' g' kk kk' hkk => ih r' p' s' g' kk kk' hkk) r prev s g k k' hk h

/-- All character classes occurring in the expression only accept
characters satisfying `Q`. -/
def clsOk (Q : Char → Prop) : RE → Prop
  | .eps => True
  | .cls p => ∀ ch, p ch = true → Q ch
  | .seq a b => clsOk Q a ∧ clsOk Q b
  | .alt a b => clsOk Q a ∧ clsOk Q b
  | .star a => clsOk Q a
  | .grp a => clsOk Q a
  | .wordB => True

/-- A successful match is a continuation call on a suffix, and every
consumed character passed some character class of the expression. -/
theorem matchGo_consume {ρ : Type} (Q : Char → Prop) (next : MNext ρ)
    (hnext : ∀ (r : RE) prev s g (k : MCont ρ) res, clsOk Q r →
      next r prev s g k = some res →
      ∃ p1 s1 g1 t, k p1 s1 g1 = some res ∧ s = t ++ s1 ∧ ∀ ch ∈ t, Q ch) :
    ∀ (r : RE) prev s g (k : MCont ρ) res, clsOk Q r →
      matchGo next r prev s g k = some res →
      ∃ p1 s1 g1 t, k p1 s1 g1 = some res ∧ s = t ++ s1 ∧ ∀ ch ∈ t, Q ch := by
  intro r
  induction r with
  | eps =>
    intro prev s g k res _ h
    exact ⟨prev, s, g, [], h, rfl, by intro ch hch; cases hch⟩
  | cls p =>
    intro prev s g k res hr h
    cases s with
    | nil => simp [matchGo] at h
    | cons c t =>
      simp only [matchGo] at h
      by_cases hc : p c
      · rw [if_pos hc] at h
        refine ⟨some c, t, g, [c], h, rfl, ?_⟩
        intro ch hch
        rw [List.mem_singleton.mp hch]
        exact hr c hc
      · rw [if_neg hc] at h
        cases h
  | seq a b iha ihb =>
    intro prev s g k res hr h
    simp only [matchGo] at h
    obtain ⟨p1, s1, g1, t1, h1, hs1, hq1⟩ := iha _ _ _ _ _ hr.1 h
    obtain ⟨p2, s2, g2, t2, h2, hs2, hq2⟩ := ihb _ _ _ _ _ hr.2 h1
    refine ⟨p2, s2, g2, t1 ++ t2, h2, ?_, ?_⟩
    · rw [hs1, hs2, List.append_assoc]
    · intro ch hch
      rcases List.mem_append.mp hch with hch | hch
      · exact hq1 ch hch
      · exact hq2 ch hch
  | alt a b iha ihb =>
    intro prev s g k res hr h
    simp only [matchGo] at h
    cases hA : matchGo next a prev s g k with
    | some res' =>
      rw [hA] at h
      cases h
      exact iha _ _ _ _ _ hr.1 hA
    | none =>
      rw [hA] at h
      exact ihb _ _ _ _ _ hr.2 h
  | star a iha =>
    intro prev s g k res hr h
    simp only [matchGo] at h
    cases hA : matchGo next a prev s g
        (fun p1 s1 g1 => if s1.length < s.length then next (.star a) p1 s1 g1 k else none) with
    | some res' =>
      rw [hA] at h
      cases h
      obtain ⟨p1, s1, g1, t1, h1, hs1, hq1⟩ := iha _ _ _ _ _ hr hA
      by_cases hlt : s1.length < s.length
      · rw [if_pos hlt] at h1
        obtain ⟨p2, s2, g2, t2, h2, hs2, hq2⟩ := hnext _ _ _ _ _ _ hr h1
        refine ⟨p2, s2, g2, t1 ++ t2, h2, ?_, ?_⟩
        · rw [hs1, hs2, List.append_assoc]
        · intro ch hch
          rcases List.mem_append.mp hch with hch | hch
          · exact hq1 ch hch
          · exact hq2 ch hch
      · rw [if_neg hlt] at h1
        cases h1
    | none =>
      rw [hA] at h
      exact ⟨prev, s, g, [], h, rfl, by intro ch hch; cases hch⟩
  | grp a iha =>
    intro prev s g k res hr h
    simp only [matchGo] at h
    obtain ⟨p1, s1, g1, t1, h1, hs1, hq1⟩ := iha _ _ _ _ _ hr h
    exact ⟨p1, s1, some (s, s1), t1, h1, hs1, hq1⟩
  | wordB =>
    intro prev s g k res _ h
    simp only [matchGo] at h
    by_cases hb : atWordBoundary prev s
    · rw [if_pos hb] at h
      exact ⟨prev, s, g, [], h, rfl, by intro ch hch; cases hch⟩
    · rw [if_neg hb] at h
      cases h

/-- The consumption property for the fuel-indexed matcher. -/
theorem matchC_consume (Q : Char → Prop) : ∀ (fuel : Nat) {ρ : Type} (r : RE)
    prev s g (k : MCont ρ) res, clsOk Q r → matchC fuel r prev s g k = some res →
    ∃ p1 s1 g1 t, k p1 s1 g1 = some res ∧ s = t ++ s1 ∧ ∀ ch ∈ t, Q ch := by
  intro fuel
  induction fuel with
  | zero => intro ρ r prev s g k res _ h; simp [matchC] at h
  | succ n ih =>
    intro ρ r prev s g k res hr h
    exact matchGo_consume Q (matchC n)
      (fun r' p' s' g' kk res' hr' => ih r' p' s' g' kk res' hr') r prev s g k res hr h

/-- Every character of the full text of a search match passed some
character class of the pattern. -/
theorem searchFrom_chars (Q : Char → Prop) (r : RE) (hr : clsOk Q r) :
    ∀ (s : List Char) (prev : Option Char) m,
      searchFrom r prev s = some m → ∀ ch ∈ fullOf m, Q ch := by
  intro s
  induction s with
  | nil =>
    intro prev m h
    rw [searchFrom] at h
    cases hm : matchC ([].length + 1) r prev [] none (fun _ rem g => some (rem, g)) with
    | some rg =>
      obtain ⟨rem, g⟩ := rg
      rw [hm] at h
      cases h
      intro ch hch
      simp [fullOf] at hch
    | none => rw [hm] at h; cases h
  | cons c t ih =>
    intro prev m h
    rw [searchFrom] at h
    cases hm : matchC ((c :: t).length + 1) r prev (c :: t) none (fun _ rem g => some (rem, g)) with
    | some rg =>
      obtain ⟨rem, g⟩ := rg
      rw [hm] at h
      cases h
      obtain ⟨p1, s1, g1, tt, h1, hs1, hq1⟩ :=
        matchC_consume Q _ r prev (c :: t) none _ (rem, g) hr hm
      have h1' : (s1, g1) = (rem, g) := by
        simpa using h1
      have heq1 : s1 = rem := (Prod.ext_iff.mp h1').1
      rw [heq1] at hs1
      intro ch hch
      have hfull : fullOf (c :: t, rem, g) = tt := by
        simp only [fullOf]
        rw [hs1]
        have hlen : (tt ++ rem).length - rem.length = tt.length := by
          simp [List.length_append]
        rw [hlen, List.take_left]
      rw [hfull] at hch
      exact hq1 ch hch
    | none =>
      rw [hm] at h
      exact ih (some c) m h

/-- Syntactic check: no character class of the expression accepts `','`. -/
def clsNoComma : RE → Bool
  | .eps => true
  | .cls p => !p ','
  | .seq a b => clsNoComma a && clsNoComma b
  | .alt a b => clsNoComma a && clsNoComma b
  | .star a => clsNoComma a
  | .grp a => clsNoComma a
  | .wordB => true

/-- The syntactic comma check implies the semantic class property. -/
theorem clsOk_of_clsNoComma : ∀ r : RE, clsNoComma r = true → clsOk (· ≠ ',') r := by
  intro r
  induction r with
  | eps => intro _; trivial
  | cls p =>
    intro h ch hch hc
    rw [hc] at hch
    rw [clsNoComma] at h
    rw [hch] at h
    cases h
  | seq a b iha ihb =>
    intro h
    rw [clsNoComma, Bool.and_eq_true] at h
    exact ⟨iha h.1, ihb h.2⟩
  | alt a b iha ihb =>
    intro h
    rw [clsNoComma, Bool.and_eq_true] at h
    exact ⟨iha h.1, ihb h.2⟩
  | star a iha => intro h; exact iha h
  | grp a iha => intro h; exact iha h
  | wordB => intro _; trivial

/-- Characters survive `dropWhile`. -/
theorem mem_of_mem_dropWhile (p : Char → Bool) :
    ∀ (l : List Char) (c : Char), c ∈ l.dropWhile p → c ∈ l := by
  intro l
  induction l with
  | nil => intro c h; simpa [List.dropWhile] using h
  | cons a t ih =>
    intro c h
    rw [List.dropWhile] at h
    cases ha : p a with
    | true =>
      rw [ha] at h
      exact List.mem_cons_of_mem a (ih c h)
    | false =>
      rw [ha] at h
      exact h

/-- Characters of a stripped text occur in the original text. -/
theorem mem_of_mem_strip (s : List Char) (c : Char) (h : c ∈ strip s) : c ∈ s := by
  rw [strip, stripL] at h
  rw [List.mem_reverse] at h
  have h2 := mem_of_mem_dropWhile pySpace _ c h
  rw [List.mem_reverse] at h2
  exact mem_of_mem_dropWhile pySpace _ c h2

/-- Prefix containment implies membership containment. -/
theorem mem_of_isPrefixOf : ∀ (k h : List Char), k.isPrefixOf h = true →
    ∀ c ∈ k, c ∈ h := by
  intro k
  induction k with
  | nil => intro h _ c hc; cases hc
  | cons a as ih =>
    intro l hp c hc
    cases l with
    | nil => exact absurd hp (by simp [List.isPrefixOf])
    | cons b bs =>
      simp only [List.isPrefixOf, Bool.and_eq_true] at hp
      rcases List.mem_cons.mp hc with rfl | hc
      · exact (beq_iff_eq.mp hp.1) ▸ List.mem_cons_self _ _
      · exact List.mem_cons_of_mem b (ih bs hp.2 c hc)

/-- Substring containment implies membership containment. -/
theorem mem_of_isSubstr : ∀ (h k : List Char), isSubstr k h = true →
    ∀ c ∈ k, c ∈ h := by
  intro h
  induction h with
  | nil =>
    intro k hs c hc
    cases k with
    | nil => cases hc
    | cons a as => simp [isSubstr] at hs
  | cons b bs ih =>
    intro k hs c hc
    rw [isSubstr, Bool.or_eq_true] at hs
    rcases hs with hs | hs
    · exact mem_of_isPrefixOf k (b :: bs) hs c hc
    · exact List.mem_cons_of_mem b (ih k hs c hc)

/-- The two search loops stay in lockstep: if the extended pattern
`a.seq b` matches somewhere, then `a` matches somewhere. -/
theorem searchFrom_seq_isSome (a b : RE) :
    ∀ (s : List Char) (prev : Option Char),
      (searchFrom (.seq a b) prev s).isSome → (searchFrom a prev s).isSome := by
  have hstep : ∀ (s : List Char) (prev : Option Char),
      (matchC (s.length + 1) (.seq a b) prev s none (fun _ rem g => some (rem, g))).isSome →
      (matchC (s.length + 1) a prev s none (fun _ rem g => some (rem, g))).isSome := by
    intro s prev h
    have h2 : (matchC (s.length + 1) (.seq a b) prev s none
        (fun _ rem g => some (rem, g))) = matchGo (matchC s.length) a prev s none
        (fun p1 s1 g1 => matchGo (matchC s.length) b p1 s1 g1 (fun _ rem g => some (rem, g))) := by
      rw [matchC, matchGo]
    rw [h2] at h
    rw [show matchC (s.length + 1) a prev s none (fun _ rem g => some (rem, g)) =
      matchGo (matchC s.length) a prev s none (fun _ rem g => some (rem, g)) from rfl]
    exact matchGo_mono (matchC s.length) (matchC s.length)
      (fun r' p' s' g' kk kk' hkk => matchC_isSome_mono s.length r' p' s' g' kk kk' hkk)
      a prev s none _ _ (fun p1 s1 g1 _ => rfl) h
  intro s
  induction s with
  | nil =>
    intro prev h
    rw [searchFrom] at h ⊢
    cases hm : matchC ([].length + 1) (RE.seq a b) prev [] none (fun _ rem g => some (rem, g)) with
    | some rg =>
      have hsome := hstep [] prev (by rw [hm]; rfl)
      obtain ⟨rg', hrg'⟩ := Option.isSome_iff_exists.mp hsome
      obtain ⟨rem', g'⟩ := rg'
      rw [hrg']
      rfl
    | none => rw [hm] at h; cases h
  | cons c t ih =>
    intro prev h
    rw [searchFrom] at h ⊢
    cases hm : matchC ((c :: t).length + 1) (RE.seq a b) prev (c :: t) none
        (fun _ rem g => some (rem, g)) with
    | some rg =>
      have hsome := hstep (c :: t) prev (by rw [hm]; rfl)
      obtain ⟨rg', hrg'⟩ := Option.isSome_iff_exists.mp hsome
      obtain ⟨rem', g'⟩ := rg'
      rw [hrg']
      rfl
    | none =>
      rw [hm] at h
      have htail := ih (some c) h
      cases hm' : matchC ((c :: t).length + 1) a prev (c :: t) none
          (fun _ rem g => some (rem, g)) with
      | some rg' =>
        obtain ⟨rem', g'⟩ := rg'
        rfl
      | none =>
        exact htail

/-- C10: the two suffixed address patterns never contribute — the address
matcher returns exactly the stripped first match of the bare pattern (or
nothing), and consequently a returned address never contains a comma, in
particular neither the `", Colorado Springs"` nor the `", CO"` suffix. -/
theorem extract_address_bare_pattern (t : List Char) :
    extract_address pdfParser t = (reSearch addrPat1 t).map (fun m => strip (fullOf m)) ∧
    ∀ res, extract_address pdfParser t = some res →
      (',' ∉ res ∧ isSubstr ", Colorado Springs".data res = false ∧
        isSubstr ", CO".data res = false) := by
  have hmain : extract_address pdfParser t =
      (reSearch addrPat1 t).map (fun m => strip (fullOf m)) := by
    show ([addrPat1, addrPat2, addrPat3].foldl (fun acc pat =>
      match acc with
      | some a => some a
      | none => (reSearch pat t).map (fun m => strip (fullOf m))) none) = _
    cases hm : reSearch addrPat1 t with
    | some m => simp [List.foldl, hm]
    | none =>
      have hm' : searchFrom addrPat1 none t = none := hm
      have h2 : reSearch addrPat2 t = none := by
        cases h2 : reSearch addrPat2 t with
        | none => rfl
        | some m2 =>
          have h2' : (searchFrom (RE.seq addrPat1 sufCS) none t).isSome := by
            rw [show searchFrom (RE.seq addrPat1 sufCS) none t = reSearch addrPat2 t from rfl, h2]
            rfl
          have hcontra := searchFrom_seq_isSome addrPat1 sufCS t none h2'
          rw [hm'] at hcontra
          cases hcontra
      have h3 : reSearch addrPat3 t = none := by
        cases h3 : reSearch addrPat3 t with
        | none => rfl
        | some m3 =>
          have h3' : (searchFrom (RE.seq addrPat1 sufCO) none t).isSome := by
            rw [show searchFrom (RE.seq addrPat1 sufCO) none t = reSearch addrPat3 t from rfl, h3]
            rfl
          have hcontra := searchFrom_seq_isSome addrPat1 sufCO t none h3'
          rw [hm'] at hcontra
          cases hcontra
      simp [List.foldl, hm, h2, h3]
  refine ⟨hmain, ?_⟩
  intro res hres
  rw [hmain] at hres
  cases hm : reSearch addrPat1 t with
  | none => rw [hm] at hres; cases hres
  | some m =>
    rw [hm] at hres
    have hres' : strip (fullOf m) = res := by
      simpa using hres
    have hchars : ∀ ch ∈ fullOf m, ch ≠ ',' := by
      intro ch hch
      exact searchFrom_chars (· ≠ ',') addrPat1
        (clsOk_of_clsNoComma addrPat1 (by decide)) t none m hm ch hch
    have hnc : ',' ∉ res := by
      intro hmem
      rw [← hres'] at hmem
      exact hchars ',' (mem_of_mem_strip _ _ hmem) rfl
    refine ⟨hnc, ?_, ?_⟩
    · cases hsub : isSubstr ", Colorado Springs".data res with
      | false => rfl
      | true =>
        exact absurd (mem_of_isSubstr res ", Colorado Springs".data hsub ','
          (by decide)) hnc
    · cases hsub : isSubstr ", CO".data res with
      | false => rfl
      | true =>
        exact absurd (mem_of_isSubstr res ", CO".data hsub ',' (by decide)) hnc

/-- C10 witness: on `"123 Main St, CO"` the matcher returns the bare-pattern
match `"123 Main St"`, which indeed carries no city/state suffix. -/
theorem extract_address_bare_pattern_witness :
    extract_address pdfParser "123 Main St, CO".data = some "123 Main St".data ∧
    isSubstr ", CO".data "123 Main St".data = false :=
  ⟨by decide,
    ((extract_address_bare_pattern "123 Main St, CO".data).2 "123 Main St".data
      (by decide)).2.2⟩

end CareAssist
